import Mathlib

set_option linter.dupNamespace false

/-!
# Verification of the tstat coverage aggregation engine

A shallow embedding of the coverage aggregation code (`newCoverage`,
`newPackageCoverage`, `PackageCoverage.add`, `toFunctions`, `isLower`,
`percent`) of the `tstat` Go package, together with proofs of the
specified properties.

Modelling conventions:

* Go maps (`map[string]V`) are modelled as association lists
  `List (String × V)` with an explicit iteration order; map assignment
  `m[k] = v` replaces the entry in place when the key is present and
  appends otherwise (`mapSet`), map indexing is `mapLookup`, and
  `maps.Values` is `mapValues`.  Go's map iteration order is
  unspecified, so theorems quantify over all association-list orders.
* `int64`/`int` values are modelled as `Int`; the coverage counts
  summed here are far below `2^63`, so wrap-around is not modelled.
* `float64` arithmetic in `percent` is modelled with exact rationals;
  Go's `math.Round` rounds half away from zero (`goRound`).
* Go strings whose bytes are inspected (function names, indexed by
  `f.Function[0]`) are modelled as byte lists `List Nat`; strings that
  are only compared for equality or copied (package and file names) are
  modelled as `String`.
* The out-of-range panic of `f.Function[0]` on an empty name is
  modelled by returning `none`: every function that can reach that
  index returns an `Option`, with `none` standing for a run-time panic.
* `gofunc.ByPackage` (an internal reader, outside the aggregation
  engine) only groups the parsed function profile by package; its
  output type is reconstructed from its use sites: a list of
  `gofunc.PackageFunctions`, each holding a package name and a map from
  file name to the file's function records.  `newCoverage` is modelled
  directly on that output.
-/

namespace Tstat

/-- Go map assignment `m[k] = v` on an association list: replace the
first entry whose key is `k`, or append `(k, v)` when no entry has that
key. -/
def mapSet {α : Type} : List (String × α) → String → α → List (String × α)
  | [], k, v => [(k, v)]
  | (k', v') :: rest, k, v =>
    if k' = k then (k, v) :: rest else (k', v') :: mapSet rest k v

/-- Go map indexing `m[k]` (with the `ok` flag modelled by `Option`):
the value of the first entry whose key is `k`. -/
def mapLookup {α : Type} : List (String × α) → String → Option α
  | [], _ => none
  | (k', v) :: rest, k => if k' = k then some v else mapLookup rest k

/-- `maps.Values`: the values of the map, in entry order. -/
def mapValues {α : Type} (m : List (String × α)) : List α :=
  m.map Prod.snd

/-- The keys of the map, in entry order. -/
def mapKeys {α : Type} (m : List (String × α)) : List String :=
  m.map Prod.fst

/-- `gocover.FileStatements`: per-file statement counts and percentage,
as produced by the statement reader (fields reconstructed from their
use in `newPackageCoverage`). -/
structure FileStatements where
  Percent : ℚ
  Stmts : Int
  CoveredStmts : Int
deriving DecidableEq

/-- `gocover.PackageStatements`: a statement-side package record:
package name, package-level aggregate counts, and the per-file map. -/
structure PackageStatements where
  Package : String
  Stmts : Int
  CoveredStmts : Int
  Files : List (String × FileStatements)
deriving DecidableEq

namespace gofunc

/-- `gofunc.Function`: one parsed function record.  `Function` is the
function name, kept as its byte list because the aggregator indexes its
first byte. -/
structure Function where
  Function : List Nat
  Percent : ℚ
  File : String
  Line : Int
deriving DecidableEq

/-- The per-file record of the function profile (its single field used
by the aggregator is the ordered list of function records). -/
structure FileFunctions where
  Functions : List Function
deriving DecidableEq

/-- `gofunc.PackageFunctions`: the function-side data of one package,
i.e. one element of the output of `gofunc.ByPackage`. -/
structure PackageFunctions where
  Package : String
  Files : List (String × FileFunctions)
deriving DecidableEq

end gofunc

/-- `FunctionCoverage` of the output tree.  `Name` is a byte list, see
the module conventions. -/
structure FunctionCoverage where
  Name : List Nat
  Percent : ℚ
  File : String
  Line : Int
  Internal : Bool
deriving DecidableEq

/-- `FileCoverage` of the output tree. -/
structure FileCoverage where
  Name : String
  Percent : ℚ
  Functions : List FunctionCoverage
  Stmts : Int
  CoveredStmts : Int
deriving DecidableEq

/-- `PackageCoverage` of the output tree. -/
structure PackageCoverage where
  Name : String
  Files : List FileCoverage
deriving DecidableEq

/-- `Coverage`: the root of the output tree. -/
structure Coverage where
  Percent : ℚ
  Packages : List PackageCoverage
deriving DecidableEq

/-- Go's `math.Round`: round to the nearest integer, ties away from
zero. -/
def goRound (x : ℚ) : Int :=
  if x < 0 then -(Int.floor (-x + 1/2)) else Int.floor (x + 1/2)

/-- `percent(num, den)`: `0` on a zero denominator, otherwise
`math.Round(num/den*1000)/10` (float64 arithmetic modelled exactly). -/
def percent (num den : Int) : ℚ :=
  if den = 0 then 0
  else (goRound ((num : ℚ) / (den : ℚ) * 1000) : ℚ) / 10

/-- `isLower(c)`: `c` is an ASCII lowercase letter byte
(`'a' = 97`, `'z' = 122`). -/
def isLower (c : Nat) : Bool :=
  97 ≤ c && c ≤ 122

/-- The loop body of `toFunctions`: convert one raw function record,
copying name, percentage, file and line and deriving `Internal` from
the first name byte `f.Function[0]`.  Indexing an empty name panics in
Go, modelled by `none`. -/
def toFunction (f : gofunc.Function) : Option FunctionCoverage :=
  match f.Function with
  | [] => none
  | c :: _ =>
    some { Name := f.Function, Percent := f.Percent,
           Internal := isLower c, File := f.File, Line := f.Line }

/-- `toFunctions`: convert the raw function records in order; `none` if
any conversion panics. -/
def toFunctions : List gofunc.Function → Option (List FunctionCoverage)
  | [] => some []
  | f :: rest =>
    (toFunction f).bind fun fc =>
      (toFunctions rest).map fun fcs => fc :: fcs

/-- `newPackageCoverage`: build a `PackageCoverage` from a statement
package: one `FileCoverage` per file, carrying the file's percentage
and counts verbatim and an empty function list.  (Go cast
`int(statements.Stmts)` of `int64` to `int` is the identity here.) -/
def newPackageCoverage (stmts : PackageStatements) : PackageCoverage :=
  let files := stmts.Files.foldl
    (fun m p => mapSet m p.1
      { Name := p.1, Functions := [], Percent := p.2.Percent,
        Stmts := p.2.Stmts, CoveredStmts := p.2.CoveredStmts })
    []
  { Name := stmts.Package, Files := mapValues files }

/-- The inner loop of `PackageCoverage.add` as a predicate: does the
package hold a file named `name`? -/
def hasFile : List FileCoverage → String → Bool
  | [], _ => false
  | f :: rest, name => if f.Name = name then true else hasFile rest name

/-- The inner-loop assignment of `PackageCoverage.add`: replace the
function list of the first file named `name`. -/
def replaceFirst (name : String) (fns : List FunctionCoverage) :
    List FileCoverage → List FileCoverage
  | [] => []
  | f :: rest =>
    if f.Name = name then { f with Functions := fns } :: rest
    else f :: replaceFirst name fns rest

/-- The outer loop of `PackageCoverage.add` over the file groups of the
function-side package data: for each group, scan the package's files
for the first one with the group's name; on a match, replace that
file's function list with `toFunctions` of the group and `return`
(ending the whole loop); otherwise continue with the next group. -/
def addLoop (pc : PackageCoverage) :
    List (String × gofunc.FileFunctions) → Option PackageCoverage
  | [] => some pc
  | (name, file) :: rest =>
    if hasFile pc.Files name then
      (toFunctions file.Functions).map fun fns =>
        { pc with Files := replaceFirst name fns pc.Files }
    else addLoop pc rest

/-- `PackageCoverage.add`: merge one function-side package into this
(matched) statement-side package. -/
def PackageCoverage.add (pc : PackageCoverage)
    (pkgFn : gofunc.PackageFunctions) : Option PackageCoverage :=
  addLoop pc pkgFn.Files

/-- The map built by the first loop of `newCoverage`:
`packages[pkg.Package] = newPackageCoverage(pkg)` for each statement
package in order. -/
def buildMap (coverPkgs : List PackageStatements) :
    List (String × PackageCoverage) :=
  coverPkgs.foldl (fun m pkg => mapSet m pkg.Package (newPackageCoverage pkg)) []

/-- The running sum `covered += pkg.CoveredStmts` of the first loop of
`newCoverage`. -/
def sumCovered (coverPkgs : List PackageStatements) : Int :=
  coverPkgs.foldl (fun s pkg => s + pkg.CoveredStmts) 0

/-- The running sum `total += pkg.Stmts` of the first loop of
`newCoverage`. -/
def sumTotal (coverPkgs : List PackageStatements) : Int :=
  coverPkgs.foldl (fun s pkg => s + pkg.Stmts) 0

/-- The second loop of `newCoverage`: for each function-side package,
look its name up in the package map; skip it when absent, otherwise
merge it with `add` (the in-place pointer mutation is modelled by
writing the updated package back under the same key). -/
def mergeLoop (packages : List (String × PackageCoverage)) :
    List gofunc.PackageFunctions → Option (List (String × PackageCoverage))
  | [] => some packages
  | pkg :: rest =>
    match mapLookup packages pkg.Package with
    | none => mergeLoop packages rest
    | some pkgCov =>
      (pkgCov.add pkg).bind fun updated =>
        mergeLoop (mapSet packages pkg.Package updated) rest

/-- `newCoverage`: build the package map and the covered/total sums
from the statement-side input (the source's single loop is split into
three independent folds), merge the function-side packages, and return
the tree with the overall percentage.  `none` models a panic during
function record conversion. -/
def newCoverage (coverPkgs : List PackageStatements)
    (fnPkgs : List gofunc.PackageFunctions) : Option Coverage :=
  (mergeLoop (buildMap coverPkgs) fnPkgs).map fun merged =>
    { Percent := percent (sumCovered coverPkgs) (sumTotal coverPkgs),
      Packages := mapValues merged }

/-- The statement-side skeleton of a file: everything but its function
list. -/
def stripFile (f : FileCoverage) : String × ℚ × Int × Int :=
  (f.Name, f.Percent, f.Stmts, f.CoveredStmts)

/-- The statement-side skeleton of a package: its name and the
skeletons of its files. -/
def stripPkg (pc : PackageCoverage) : String × List (String × ℚ × Int × Int) :=
  (pc.Name, pc.Files.map stripFile)

/-- A percentage value that is in `[0, 100]` and has exactly one
decimal place. -/
def inRange (p : ℚ) : Prop :=
  0 ≤ p ∧ p ≤ 100 ∧ ∃ k : ℤ, p = (k : ℚ) / 10

/-! ## Lemmas about the map model -/

theorem mapKeys_cons {α : Type} (p : String × α) (m : List (String × α)) :
    mapKeys (p :: m) = p.1 :: mapKeys m := rfl

theorem mem_mapKeys {α : Type} {m : List (String × α)} {k : String} :
    k ∈ mapKeys m ↔ ∃ v, (k, v) ∈ m := by
  constructor
  · intro h
    rcases List.mem_map.mp h with ⟨p, hp, he⟩
    exact ⟨p.2, by rw [← he]; exact hp⟩
  · rintro ⟨v, hv⟩
    exact List.mem_map.mpr ⟨(k, v), hv, rfl⟩

theorem mapKeys_mapSet_of_mem {α : Type} {m : List (String × α)} {k : String}
    (v : α) (h : k ∈ mapKeys m) : mapKeys (mapSet m k v) = mapKeys m := by
  induction m with
  | nil => simp [mapKeys] at h
  | cons p rest ih =>
    obtain ⟨k', v'⟩ := p
    rw [mapKeys_cons] at h
    by_cases hk : k' = k
    · simp [mapSet, hk, mapKeys_cons]
    · have hm : k ∈ mapKeys rest := by
        rcases List.mem_cons.mp h with h1 | h1
        · exact absurd h1.symm hk
        · exact h1
      simp [mapSet, hk, mapKeys_cons, ih hm]

theorem mapKeys_mapSet_of_not_mem {α : Type} {m : List (String × α)} {k : String}
    (v : α) (h : k ∉ mapKeys m) : mapKeys (mapSet m k v) = mapKeys m ++ [k] := by
  induction m with
  | nil => simp [mapSet, mapKeys]
  | cons p rest ih =>
    obtain ⟨k', v'⟩ := p
    rw [mapKeys_cons] at h
    have hk : k' ≠ k := fun he => h (he ▸ List.mem_cons_self _ _)
    have hm : k ∉ mapKeys rest := fun hc => h (List.mem_cons_of_mem _ hc)
    simp [mapSet, hk, mapKeys_cons, ih hm]

theorem mapKeys_mapSet_nodup {α : Type} {m : List (String × α)} {k : String}
    (v : α) (h : (mapKeys m).Nodup) : (mapKeys (mapSet m k v)).Nodup := by
  by_cases hk : k ∈ mapKeys m
  · rw [mapKeys_mapSet_of_mem v hk]; exact h
  · rw [mapKeys_mapSet_of_not_mem v hk]
    simpa [List.nodup_append] using ⟨h, fun hc => hk hc⟩

theorem mem_mapSet {α : Type} {m : List (String × α)} {k : String} {v : α}
    {p : String × α} (h : p ∈ mapSet m k v) : p ∈ m ∨ p = (k, v) := by
  induction m with
  | nil => simpa [mapSet] using h
  | cons q rest ih =>
    obtain ⟨k', v'⟩ := q
    by_cases hk : k' = k
    · rw [show mapSet ((k', v') :: rest) k v = (k, v) :: rest by
        simp [mapSet, hk]] at h
      rcases List.mem_cons.mp h with h1 | h1
      · exact Or.inr h1
      · exact Or.inl (List.mem_cons_of_mem _ h1)
    · rw [show mapSet ((k', v') :: rest) k v = (k', v') :: mapSet rest k v by
        simp [mapSet, hk]] at h
      rcases List.mem_cons.mp h with h1 | h1
      · exact Or.inl (h1 ▸ List.mem_cons_self _ _)
      · rcases ih h1 with h2 | h2
        · exact Or.inl (List.mem_cons_of_mem _ h2)
        · exact Or.inr h2

theorem mapLookup_mem {α : Type} {m : List (String × α)} {k : String} {v : α}
    (h : mapLookup m k = some v) : (k, v) ∈ m := by
  induction m with
  | nil => simp [mapLookup] at h
  | cons q rest ih =>
    obtain ⟨k', v'⟩ := q
    by_cases hk : k' = k
    · have hv : v' = v := by simpa [mapLookup, hk] using h
      subst hk; subst hv
      exact List.mem_cons_self _ _
    · exact List.mem_cons_of_mem _ (ih (by simpa [mapLookup, hk] using h))

theorem mapLookup_eq_none_of_not_mem {α : Type} {m : List (String × α)}
    {k : String} (h : k ∉ mapKeys m) : mapLookup m k = none := by
  induction m with
  | nil => simp [mapLookup]
  | cons q rest ih =>
    obtain ⟨k', v'⟩ := q
    rw [mapKeys_cons] at h
    have hk : k' ≠ k := fun he => h (he ▸ List.mem_cons_self _ _)
    have hm : k ∉ mapKeys rest := fun hc => h (List.mem_cons_of_mem _ hc)
    simp [mapLookup, hk, ih hm]

theorem mapLookup_mem_keys {α : Type} {m : List (String × α)} {k : String}
    {v : α} (h : mapLookup m k = some v) : k ∈ mapKeys m :=
  mem_mapKeys.mpr ⟨v, mapLookup_mem h⟩

theorem mem_mapValues {α : Type} {m : List (String × α)} {x : α} :
    x ∈ mapValues m ↔ ∃ k, (k, x) ∈ m := by
  constructor
  · intro h
    rcases List.mem_map.mp h with ⟨p, hp, he⟩
    exact ⟨p.1, by rw [← he]; exact hp⟩
  · rintro ⟨k, hk⟩
    exact List.mem_map.mpr ⟨(k, x), hk, rfl⟩

/-- Membership in a fold of `mapSet` insertions: every entry is either
from the initial map or one of the inserted pairs. -/
theorem mem_foldl_mapSet {β : Type} (g : β → String × PackageCoverage)
    (l : List β) (m0 : List (String × PackageCoverage))
    {p : String × PackageCoverage}
    (hp : p ∈ l.foldl (fun m x => mapSet m (g x).1 (g x).2) m0) :
    p ∈ m0 ∨ ∃ x ∈ l, p = g x := by
  induction l generalizing m0 with
  | nil => exact Or.inl hp
  | cons x rest ih =>
    rcases ih (mapSet m0 (g x).1 (g x).2) hp with h1 | ⟨y, hy, he⟩
    · rcases mem_mapSet h1 with h2 | h2
      · exact Or.inl h2
      · exact Or.inr ⟨x, List.mem_cons_self _ _, by simpa using h2⟩
    · exact Or.inr ⟨y, List.mem_cons_of_mem _ hy, he⟩

/-- Membership in a fold of `mapSet` insertions of `FileCoverage`
values. -/
theorem mem_foldl_mapSet_file {β : Type} (g : β → String × FileCoverage)
    (l : List β) (m0 : List (String × FileCoverage))
    {p : String × FileCoverage}
    (hp : p ∈ l.foldl (fun m x => mapSet m (g x).1 (g x).2) m0) :
    p ∈ m0 ∨ ∃ x ∈ l, p = g x := by
  induction l generalizing m0 with
  | nil => exact Or.inl hp
  | cons x rest ih =>
    rcases ih (mapSet m0 (g x).1 (g x).2) hp with h1 | ⟨y, hy, he⟩
    · rcases mem_mapSet h1 with h2 | h2
      · exact Or.inl h2
      · exact Or.inr ⟨x, List.mem_cons_self _ _, by simpa using h2⟩
    · exact Or.inr ⟨y, List.mem_cons_of_mem _ hy, he⟩

/-- Keys of a fold of `mapSet` insertions are among the initial keys
and the inserted keys. -/
theorem mapKeys_foldl_mapSet_sub {β : Type} (g : β → String × PackageCoverage)
    (l : List β) (m0 : List (String × PackageCoverage))
    {k : String}
    (hk : k ∈ mapKeys (l.foldl (fun m x => mapSet m (g x).1 (g x).2) m0)) :
    k ∈ mapKeys m0 ∨ ∃ x ∈ l, k = (g x).1 := by
  rcases List.mem_map.mp hk with ⟨p, hp, he⟩
  rcases mem_foldl_mapSet g l m0 hp with h1 | ⟨x, hx, he2⟩
  · exact Or.inl (he ▸ List.mem_map.mpr ⟨p, h1, rfl⟩)
  · exact Or.inr ⟨x, hx, by rw [← he, he2]⟩

theorem mapKeys_foldl_mapSet_nodup {β : Type} (g : β → String × PackageCoverage)
    (l : List β) (m0 : List (String × PackageCoverage))
    (h0 : (mapKeys m0).Nodup) :
    (mapKeys (l.foldl (fun m x => mapSet m (g x).1 (g x).2) m0)).Nodup := by
  induction l generalizing m0 with
  | nil => exact h0
  | cons x rest ih => exact ih _ (mapKeys_mapSet_nodup _ h0)

/-! ## Lemmas about the arithmetic -/

theorem foldl_add_eq (f : PackageStatements → Int)
    (l : List PackageStatements) (a : Int) :
    l.foldl (fun s x => s + f x) a = a + (l.map f).sum := by
  induction l generalizing a with
  | nil => simp
  | cons x rest ih => simp [List.foldl_cons, ih, add_assoc]

theorem sumCovered_eq (l : List PackageStatements) :
    sumCovered l = (l.map PackageStatements.CoveredStmts).sum := by
  simpa using foldl_add_eq PackageStatements.CoveredStmts l 0

theorem sumTotal_eq (l : List PackageStatements) :
    sumTotal l = (l.map PackageStatements.Stmts).sum := by
  simpa using foldl_add_eq PackageStatements.Stmts l 0

theorem percent_zero_den (n : Int) : percent n 0 = 0 := by
  simp [percent]

theorem percent_inRange {n d : Int} (h0 : 0 ≤ n) (h1 : n ≤ d) :
    inRange (percent n d) := by
  by_cases hd : d = 0
  · rw [hd, percent_zero_den]
    exact ⟨le_refl 0, by norm_num, 0, by norm_num⟩
  · have hdpos : 0 < d := lt_of_le_of_ne (le_trans h0 h1) (Ne.symm hd)
    have hdq : (0 : ℚ) < (d : ℚ) := by exact_mod_cast hdpos
    have hx0 : (0 : ℚ) ≤ (n : ℚ) / (d : ℚ) * 1000 := by
      have : (0 : ℚ) ≤ (n : ℚ) / (d : ℚ) :=
        div_nonneg (by exact_mod_cast h0) (le_of_lt hdq)
      linarith
    have hx1 : (n : ℚ) / (d : ℚ) * 1000 ≤ 1000 := by
      have : (n : ℚ) / (d : ℚ) ≤ 1 :=
        (div_le_one hdq).mpr (by exact_mod_cast h1)
      linarith
    set x : ℚ := (n : ℚ) / (d : ℚ) * 1000 with hxdef
    have hnotneg : ¬ x < 0 := not_lt.mpr hx0
    have hg : goRound x = Int.floor (x + 1/2) := by
      simp [goRound, hnotneg]
    have hflo : (0 : ℤ) ≤ Int.floor (x + 1/2) :=
      Int.le_floor.mpr (by push_cast; linarith)
    have hfhi : Int.floor (x + 1/2) ≤ 1000 := by
      have : Int.floor (x + 1/2) < 1001 :=
        Int.floor_lt.mpr (by push_cast; linarith)
      omega
    have hpe : percent n d = (goRound x : ℚ) / 10 := by
      simp [percent, hd, hxdef]
    rw [hpe, hg]
    refine ⟨?_, ?_, Int.floor (x + 1/2), rfl⟩
    · have : (0 : ℚ) ≤ (Int.floor (x + 1/2) : ℚ) := by exact_mod_cast hflo
      linarith
    · have : ((Int.floor (x + 1/2) : ℤ) : ℚ) ≤ 1000 := by exact_mod_cast hfhi
      linarith

/-! ## Lemmas about the build phase -/

theorem mem_buildMap {cps : List PackageStatements}
    {p : String × PackageCoverage} (hp : p ∈ buildMap cps) :
    ∃ q ∈ cps, p = (q.Package, newPackageCoverage q) := by
  have := mem_foldl_mapSet
    (fun q => (q.Package, newPackageCoverage q)) cps [] (by exact hp)
  rcases this with h1 | h1
  · simp at h1
  · exact h1

theorem buildMap_keys_nodup (cps : List PackageStatements) :
    (mapKeys (buildMap cps)).Nodup := by
  have := mapKeys_foldl_mapSet_nodup
    (fun q => (q.Package, newPackageCoverage q)) cps [] (by simp [mapKeys])
  exact this

theorem buildMap_keys_sub {cps : List PackageStatements} {k : String}
    (hk : k ∈ mapKeys (buildMap cps)) : ∃ q ∈ cps, q.Package = k := by
  rcases mem_mapKeys.mp hk with ⟨v, hv⟩
  rcases mem_buildMap hv with ⟨q, hq, he⟩
  exact ⟨q, hq, by rw [(Prod.mk.injEq .. ▸ he : k = q.Package ∧ _).1]⟩

theorem newPackageCoverage_Name (p : PackageStatements) :
    (newPackageCoverage p).Name = p.Package := rfl

theorem mem_newPackageCoverage_Files {p : PackageStatements}
    {f : FileCoverage} (hf : f ∈ (newPackageCoverage p).Files) :
    f.Functions = [] ∧ ∃ e ∈ p.Files, f.Name = e.1 ∧ f.Percent = e.2.Percent ∧
      f.Stmts = e.2.Stmts ∧ f.CoveredStmts = e.2.CoveredStmts := by
  rcases mem_mapValues.mp hf with ⟨k, hk⟩
  have := mem_foldl_mapSet_file
    (fun e => (e.1, ⟨e.1, e.2.Percent, [], e.2.Stmts, e.2.CoveredStmts⟩))
    p.Files [] (by exact hk)
  rcases this with h1 | ⟨e, he, hpe⟩
  · simp at h1
  · have hfe : f = ⟨e.1, e.2.Percent, [], e.2.Stmts, e.2.CoveredStmts⟩ :=
      (Prod.mk.injEq .. ▸ hpe : _ ∧ _).2
    exact ⟨by rw [hfe], e, he, by rw [hfe], by rw [hfe], by rw [hfe], by rw [hfe]⟩

/-! ## Lemmas about function record conversion -/

theorem toFunction_fields {g : gofunc.Function} {fc : FunctionCoverage}
    (h : toFunction g = some fc) :
    fc.Name = g.Function ∧ fc.Percent = g.Percent ∧ fc.File = g.File ∧
      fc.Line = g.Line := by
  match hg : g.Function with
  | [] => rw [toFunction, hg] at h; exact absurd h (by simp)
  | c :: rest =>
    rw [toFunction, hg] at h
    have := (Option.some.injEq .. ▸ h : _ = fc)
    rw [← this, ← hg]
    exact ⟨rfl, rfl, rfl, rfl⟩

theorem toFunction_isSome {g : gofunc.Function} (h : g.Function ≠ []) :
    (toFunction g).isSome := by
  match hg : g.Function with
  | [] => exact absurd hg h
  | c :: rest => rw [toFunction, hg]; rfl

theorem toFunctions_isSome {l : List gofunc.Function}
    (h : ∀ g ∈ l, g.Function ≠ []) : (toFunctions l).isSome := by
  induction l with
  | nil => rfl
  | cons g rest ih =>
    rw [toFunctions]
    rcases Option.isSome_iff_exists.mp
      (toFunction_isSome (h g (List.mem_cons_self _ _))) with ⟨fc, hfc⟩
    rcases Option.isSome_iff_exists.mp
      (ih fun g' hg' => h g' (List.mem_cons_of_mem _ hg')) with ⟨fcs, hfcs⟩
    simp [hfc, hfcs]

theorem toFunctions_mem {l : List gofunc.Function}
    {fcs : List FunctionCoverage} {fc : FunctionCoverage}
    (h : toFunctions l = some fcs) (hm : fc ∈ fcs) :
    ∃ g ∈ l, toFunction g = some fc := by
  induction l generalizing fcs with
  | nil =>
    rw [toFunctions] at h
    rw [← (Option.some.injEq .. ▸ h : _ = fcs)] at hm
    simp at hm
  | cons g rest ih =>
    rw [toFunctions] at h
    rcases Option.bind_eq_some.mp h with ⟨fc0, hfc0, h2⟩
    rcases Option.map_eq_some'.mp h2 with ⟨fcs0, hfcs0, he⟩
    rw [← he] at hm
    rcases List.mem_cons.mp hm with h1 | h1
    · exact ⟨g, List.mem_cons_self _ _, h1 ▸ hfc0⟩
    · rcases ih hfcs0 h1 with ⟨g', hg', hfc'⟩
      exact ⟨g', List.mem_cons_of_mem _ hg', hfc'⟩

/-! ## Lemmas about the merge of one package (`PackageCoverage.add`) -/

theorem replaceFirst_strip (name : String) (fns : List FunctionCoverage)
    (files : List FileCoverage) :
    (replaceFirst name fns files).map stripFile = files.map stripFile := by
  induction files with
  | nil => rfl
  | cons f rest ih =>
    by_cases hn : f.Name = name
    · simp [replaceFirst, hn, stripFile]
    · simp [replaceFirst, hn, ih]

theorem mem_replaceFirst {name : String} {fns : List FunctionCoverage}
    {files : List FileCoverage} {f : FileCoverage}
    (h : f ∈ replaceFirst name fns files) :
    f ∈ files ∨ ∃ f0 ∈ files, f = { f0 with Functions := fns } := by
  induction files with
  | nil => simp [replaceFirst] at h
  | cons f0 rest ih =>
    by_cases hn : f0.Name = name
    · rw [show replaceFirst name fns (f0 :: rest)
          = { f0 with Functions := fns } :: rest by simp [replaceFirst, hn]] at h
      rcases List.mem_cons.mp h with h1 | h1
      · exact Or.inr ⟨f0, List.mem_cons_self _ _, h1⟩
      · exact Or.inl (List.mem_cons_of_mem _ h1)
    · rw [show replaceFirst name fns (f0 :: rest)
          = f0 :: replaceFirst name fns rest by simp [replaceFirst, hn]] at h
      rcases List.mem_cons.mp h with h1 | h1
      · exact Or.inl (h1 ▸ List.mem_cons_self _ _)
      · rcases ih h1 with h2 | ⟨f1, hf1, he⟩
        · exact Or.inl (List.mem_cons_of_mem _ h2)
        · exact Or.inr ⟨f1, List.mem_cons_of_mem _ hf1, he⟩

theorem addLoop_Name {pc pc' : PackageCoverage}
    {gs : List (String × gofunc.FileFunctions)}
    (h : addLoop pc gs = some pc') : pc'.Name = pc.Name := by
  induction gs with
  | nil =>
    rw [addLoop] at h
    rw [← (Option.some.injEq .. ▸ h : _ = pc')]
  | cons g rest ih =>
    obtain ⟨name, file⟩ := g
    rw [addLoop] at h
    by_cases hf : hasFile pc.Files name
    · rw [if_pos hf] at h
      rcases Option.map_eq_some'.mp h with ⟨fns, _, he⟩
      rw [← he]
    · rw [if_neg hf] at h
      exact ih h

theorem addLoop_strip {pc pc' : PackageCoverage}
    {gs : List (String × gofunc.FileFunctions)}
    (h : addLoop pc gs = some pc') : stripPkg pc' = stripPkg pc := by
  induction gs with
  | nil =>
    rw [addLoop] at h
    rw [← (Option.some.injEq .. ▸ h : _ = pc')]
  | cons g rest ih =>
    obtain ⟨name, file⟩ := g
    rw [addLoop] at h
    by_cases hf : hasFile pc.Files name
    · rw [if_pos hf] at h
      rcases Option.map_eq_some'.mp h with ⟨fns, _, he⟩
      rw [← he]
      simp [stripPkg, replaceFirst_strip]
    · rw [if_neg hf] at h
      exact ih h

theorem addLoop_provenance {pc pc' : PackageCoverage}
    {gs : List (String × gofunc.FileFunctions)}
    (h : addLoop pc gs = some pc')
    {f : FileCoverage} (hf : f ∈ pc'.Files)
    {fc : FunctionCoverage} (hfc : fc ∈ f.Functions) :
    (∃ f0 ∈ pc.Files, fc ∈ f0.Functions) ∨
      ∃ e ∈ gs, ∃ g ∈ e.2.Functions, toFunction g = some fc := by
  induction gs with
  | nil =>
    rw [addLoop] at h
    rw [← (Option.some.injEq .. ▸ h : _ = pc')] at hf
    exact Or.inl ⟨f, hf, hfc⟩
  | cons e rest ih =>
    obtain ⟨name, file⟩ := e
    rw [addLoop] at h
    by_cases hh : hasFile pc.Files name
    · rw [if_pos hh] at h
      rcases Option.map_eq_some'.mp h with ⟨fns, hfns, he⟩
      rw [← he] at hf
      rcases mem_replaceFirst hf with h1 | ⟨f0, hf0, hfe⟩
      · exact Or.inl ⟨f, h1, hfc⟩
      · rw [hfe] at hfc
        rcases toFunctions_mem hfns hfc with ⟨g, hg, hgfc⟩
        exact Or.inr ⟨(name, file), List.mem_cons_self _ _, g, hg, hgfc⟩
    · rw [if_neg hh] at h
      rcases ih h with h1 | ⟨e', he', hrest⟩
      · exact Or.inl h1
      · exact Or.inr ⟨e', List.mem_cons_of_mem _ he', hrest⟩

theorem addLoop_isSome (pc : PackageCoverage)
    (gs : List (String × gofunc.FileFunctions))
    (h : ∀ e ∈ gs, ∀ g ∈ e.2.Functions, g.Function ≠ []) :
    (addLoop pc gs).isSome := by
  induction gs with
  | nil => rfl
  | cons e rest ih =>
    obtain ⟨name, file⟩ := e
    rw [addLoop]
    by_cases hh : hasFile pc.Files name
    · rw [if_pos hh]
      rcases Option.isSome_iff_exists.mp
        (toFunctions_isSome fun g hg =>
          h (name, file) (List.mem_cons_self _ _) g hg) with ⟨fns, hfns⟩
      simp [hfns]
    · rw [if_neg hh]
      exact ih fun e' he' => h e' (List.mem_cons_of_mem _ he')

theorem add_Name {pc pc' : PackageCoverage} {q : gofunc.PackageFunctions}
    (h : pc.add q = some pc') : pc'.Name = pc.Name :=
  addLoop_Name h

theorem add_strip {pc pc' : PackageCoverage} {q : gofunc.PackageFunctions}
    (h : pc.add q = some pc') : stripPkg pc' = stripPkg pc :=
  addLoop_strip h

/-! ## Lemmas about the merge loop -/

theorem mergeLoop_keys {m m' : List (String × PackageCoverage)}
    {fns : List gofunc.PackageFunctions}
    (h : mergeLoop m fns = some m') : mapKeys m' = mapKeys m := by
  induction fns generalizing m with
  | nil =>
    rw [mergeLoop] at h
    rw [← (Option.some.injEq .. ▸ h : _ = m')]
  | cons q rest ih =>
    rw [mergeLoop] at h
    cases hlk : mapLookup m q.Package with
    | none =>
      rw [hlk] at h
      exact ih h
    | some pcov =>
      rw [hlk] at h
      rcases Option.bind_eq_some.mp h with ⟨upd, _, h2⟩
      rw [ih h2, mapKeys_mapSet_of_mem upd (mapLookup_mem_keys hlk)]

theorem mergeLoop_good {m m' : List (String × PackageCoverage)}
    (hg : ∀ p ∈ m, (p.2 : PackageCoverage).Name = p.1)
    {fns : List gofunc.PackageFunctions}
    (h : mergeLoop m fns = some m') :
    ∀ p ∈ m', (p.2 : PackageCoverage).Name = p.1 := by
  induction fns generalizing m with
  | nil =>
    rw [mergeLoop] at h
    rw [← (Option.some.injEq .. ▸ h : _ = m')]
    exact hg
  | cons q rest ih =>
    rw [mergeLoop] at h
    cases hlk : mapLookup m q.Package with
    | none =>
      rw [hlk] at h
      exact ih hg h
    | some pcov =>
      rw [hlk] at h
      rcases Option.bind_eq_some.mp h with ⟨upd, hupd, h2⟩
      refine ih ?_ h2
      intro p hp
      rcases mem_mapSet hp with h3 | h3
      · exact hg p h3
      · rw [h3]
        have h4 : upd.Name = pcov.Name := add_Name hupd
        have h5 := hg (q.Package, pcov) (mapLookup_mem hlk)
        simpa [h4] using h5

theorem mapSet_strip {m : List (String × PackageCoverage)} {k : String}
    {v : PackageCoverage} (v' : PackageCoverage)
    (hlk : mapLookup m k = some v) (hs : stripPkg v' = stripPkg v) :
    (mapSet m k v').map (fun p => (p.1, stripPkg p.2))
      = m.map (fun p => (p.1, stripPkg p.2)) := by
  induction m with
  | nil => simp [mapLookup] at hlk
  | cons q rest ih =>
    obtain ⟨k', v0⟩ := q
    by_cases hk : k' = k
    · have hv : v0 = v := by simpa [mapLookup, hk] using hlk
      subst hk; subst hv
      simp [mapSet, hs]
    · rw [show mapSet ((k', v0) :: rest) k v' = (k', v0) :: mapSet rest k v' by
        simp [mapSet, hk]]
      simp only [List.map_cons]
      rw [ih (by simpa [mapLookup, hk] using hlk)]

theorem mergeLoop_strip {m m' : List (String × PackageCoverage)}
    {fns : List gofunc.PackageFunctions}
    (h : mergeLoop m fns = some m') :
    m'.map (fun p => (p.1, stripPkg p.2)) = m.map (fun p => (p.1, stripPkg p.2)) := by
  induction fns generalizing m with
  | nil =>
    rw [mergeLoop] at h
    rw [← (Option.some.injEq .. ▸ h : _ = m')]
  | cons q rest ih =>
    rw [mergeLoop] at h
    cases hlk : mapLookup m q.Package with
    | none =>
      rw [hlk] at h
      exact ih h
    | some pcov =>
      rw [hlk] at h
      rcases Option.bind_eq_some.mp h with ⟨upd, hupd, h2⟩
      rw [ih h2, mapSet_strip upd hlk (add_strip hupd)]

theorem mergeLoop_untouched {m m' : List (String × PackageCoverage)}
    {fns : List gofunc.PackageFunctions}
    (h : mergeLoop m fns = some m') {k : String} {pc : PackageCoverage}
    (hmem : (k, pc) ∈ m') (hk : ∀ q ∈ fns, q.Package ≠ k) : (k, pc) ∈ m := by
  induction fns generalizing m with
  | nil =>
    rw [mergeLoop] at h
    rw [← (Option.some.injEq .. ▸ h : _ = m')] at hmem
    exact hmem
  | cons q rest ih =>
    rw [mergeLoop] at h
    cases hlk : mapLookup m q.Package with
    | none =>
      rw [hlk] at h
      exact ih h fun q' hq' => hk q' (List.mem_cons_of_mem _ hq')
    | some pcov =>
      rw [hlk] at h
      rcases Option.bind_eq_some.mp h with ⟨upd, _, h2⟩
      rcases mem_mapSet (ih h2 fun q' hq' => hk q' (List.mem_cons_of_mem _ hq'))
        with h4 | h4
      · exact h4
      · exact absurd ((Prod.mk.injEq .. ▸ h4 : k = q.Package ∧ _).1).symm
          (hk q (List.mem_cons_self _ _))

theorem mergeLoop_skip {m : List (String × PackageCoverage)}
    (pre : List gofunc.PackageFunctions)
    (post : List gofunc.PackageFunctions) {fp : gofunc.PackageFunctions}
    (hk : fp.Package ∉ mapKeys m) :
    mergeLoop m (pre ++ fp :: post) = mergeLoop m (pre ++ post) := by
  induction pre generalizing m with
  | nil =>
    simp only [List.nil_append]
    rw [mergeLoop, mapLookup_eq_none_of_not_mem hk]
  | cons q pre ih =>
    simp only [List.cons_append]
    rw [mergeLoop, mergeLoop]
    cases hlk : mapLookup m q.Package with
    | none => exact ih hk
    | some pcov =>
      show ((pcov.add q).bind fun updated =>
          mergeLoop (mapSet m q.Package updated) (pre ++ fp :: post))
        = (pcov.add q).bind fun updated =>
          mergeLoop (mapSet m q.Package updated) (pre ++ post)
      cases hadd : pcov.add q with
      | none => rfl
      | some upd =>
        exact ih (by
          rw [mapKeys_mapSet_of_mem upd (mapLookup_mem_keys hlk)]
          exact hk)

theorem mergeLoop_provenance {m' : List (String × PackageCoverage)}
    {fns : List gofunc.PackageFunctions}
    {m : List (String × PackageCoverage)}
    (h : mergeLoop m fns = some m') {k : String} {pc' : PackageCoverage}
    (hmem : (k, pc') ∈ m') {f : FileCoverage} (hf : f ∈ pc'.Files)
    {fc : FunctionCoverage} (hfc : fc ∈ f.Functions) :
    (∃ pc f0, (k, pc) ∈ m ∧ f0 ∈ pc.Files ∧ fc ∈ f0.Functions) ∨
      ∃ q ∈ fns, ∃ e ∈ q.Files, ∃ g ∈ e.2.Functions, toFunction g = some fc := by
  induction fns generalizing m with
  | nil =>
    rw [mergeLoop] at h
    rw [← (Option.some.injEq .. ▸ h : _ = m')] at hmem
    exact Or.inl ⟨pc', f, hmem, hf, hfc⟩
  | cons q rest ih =>
    rw [mergeLoop] at h
    cases hlk : mapLookup m q.Package with
    | none =>
      rw [hlk] at h
      rcases ih h with h1 | ⟨q', hq', h2⟩
      · exact Or.inl h1
      · exact Or.inr ⟨q', List.mem_cons_of_mem _ hq', h2⟩
    | some pcov =>
      rw [hlk] at h
      rcases Option.bind_eq_some.mp h with ⟨upd, hupd, h2⟩
      rcases ih h2 with ⟨pc, f0, hpcm, hf0, hfc0⟩ | ⟨q', hq', h3⟩
      · rcases mem_mapSet hpcm with h4 | h4
        · exact Or.inl ⟨pc, f0, h4, hf0, hfc0⟩
        · have hkq : k = q.Package := (Prod.mk.injEq .. ▸ h4 : _ ∧ _).1
          have hpcu : pc = upd := (Prod.mk.injEq .. ▸ h4 : _ ∧ _).2
          rw [hpcu] at hf0
          rcases addLoop_provenance hupd hf0 hfc0
            with ⟨f1, hf1, hfc1⟩ | ⟨e, he, g, hg, hgfc⟩
          · exact Or.inl ⟨pcov, f1, hkq ▸ mapLookup_mem hlk, hf1, hfc1⟩
          · exact Or.inr ⟨q, List.mem_cons_self _ _, e, he, g, hg, hgfc⟩
      · exact Or.inr ⟨q', List.mem_cons_of_mem _ hq', h3⟩

theorem mergeLoop_isSome (m : List (String × PackageCoverage))
    (fns : List gofunc.PackageFunctions)
    (h : ∀ q ∈ fns, ∀ e ∈ q.Files, ∀ g ∈ e.2.Functions, g.Function ≠ []) :
    (mergeLoop m fns).isSome := by
  induction fns generalizing m with
  | nil => rfl
  | cons q rest ih =>
    rw [mergeLoop]
    cases hlk : mapLookup m q.Package with
    | none => exact ih m fun q' hq' => h q' (List.mem_cons_of_mem _ hq')
    | some pcov =>
      rcases Option.isSome_iff_exists.mp
        (addLoop_isSome pcov q.Files (h q (List.mem_cons_self _ _)))
        with ⟨upd, hupd⟩
      have hadd : pcov.add q = some upd := hupd
      show ((pcov.add q).bind fun updated =>
          mergeLoop (mapSet m q.Package updated) rest).isSome = true
      rw [hadd]
      exact ih _ fun q' hq' => h q' (List.mem_cons_of_mem _ hq')

theorem buildMap_good (cps : List PackageStatements) :
    ∀ p ∈ buildMap cps, (p.2 : PackageCoverage).Name = p.1 := by
  intro p hp
  rcases mem_buildMap hp with ⟨q, _, he⟩
  rw [he]
  rfl

theorem goRound_eq_of_nonneg {x : ℚ} {k : ℤ} (h0 : 0 ≤ x)
    (h1 : (k : ℚ) ≤ x + 1/2) (h2 : x + 1/2 < (k : ℚ) + 1) : goRound x = k := by
  rw [goRound, if_neg (not_lt.mpr h0)]
  exact Int.floor_eq_iff.mpr ⟨h1, h2⟩

theorem goRound_eq_of_neg {x : ℚ} {k : ℤ} (h0 : x < 0)
    (h1 : (k : ℚ) ≤ -x + 1/2) (h2 : -x + 1/2 < (k : ℚ) + 1) : goRound x = -k := by
  rw [goRound, if_pos h0, Int.floor_eq_iff.mpr ⟨h1, h2⟩]

theorem percent_eq {n d : Int} (hd : d ≠ 0) {k : ℤ}
    (h : goRound ((n : ℚ) / (d : ℚ) * 1000) = k) : percent n d = (k : ℚ) / 10 := by
  rw [percent, if_neg hd, h]

/-! ## The claims -/

/-- C1: the claim states that every file group of a matched package is
processed independently, so that when several groups match distinct
existing files, every one of those files receives its functions.  The
code refutes this: `PackageCoverage.add` returns from the whole merge
after the first matching group.  Here the package has files `x.go` and
`y.go` and the function data has matching groups for both, yet only
`x.go` receives its functions and the `y.go` group is discarded. -/
theorem c1_add_stops_after_first_matching_group :
    PackageCoverage.add
        ⟨"p", [⟨"x.go", 0, [], 1, 1⟩, ⟨"y.go", 0, [], 1, 1⟩]⟩
        ⟨"p", [("x.go", ⟨[⟨[70], 100, "x.go", 1⟩]⟩),
               ("y.go", ⟨[⟨[71], 50, "y.go", 9⟩]⟩)]⟩
      = some ⟨"p", [⟨"x.go", 0, [⟨[70], 100, "x.go", 1, false⟩], 1, 1⟩,
                    ⟨"y.go", 0, [], 1, 1⟩]⟩ := by
  simp [PackageCoverage.add, addLoop, hasFile, replaceFirst, toFunctions,
    toFunction, isLower]

/-- C2: a function-side package whose name matches no statement-side
package contributes nothing: the aggregation result equals the result
without that package's function data; and the files of statement-side
packages with no function-side match keep empty function lists. -/
theorem c2_unmatched_function_package_dropped (cps : List PackageStatements)
    (pre post : List gofunc.PackageFunctions) (fp : gofunc.PackageFunctions)
    (h : ∀ p ∈ cps, p.Package ≠ fp.Package) :
    newCoverage cps (pre ++ fp :: post) = newCoverage cps (pre ++ post) ∧
      ∀ fns cov pc, newCoverage cps fns = some cov → pc ∈ cov.Packages →
        (∀ q ∈ fns, q.Package ≠ pc.Name) → ∀ f ∈ pc.Files, f.Functions = [] := by
  constructor
  · have hnot : fp.Package ∉ mapKeys (buildMap cps) := by
      intro hc
      rcases buildMap_keys_sub hc with ⟨q, hq, he⟩
      exact h q hq he
    unfold newCoverage
    rw [mergeLoop_skip pre post hnot]
  · intro fns cov pc hcov hpc hq f hf
    unfold newCoverage at hcov
    rcases Option.map_eq_some'.mp hcov with ⟨merged, hm, he⟩
    rw [← he] at hpc
    rcases mem_mapValues.mp hpc with ⟨k, hk⟩
    have hgood := mergeLoop_good (buildMap_good cps) hm
    have hkname : pc.Name = k := hgood (k, pc) hk
    have hbm : (k, pc) ∈ buildMap cps :=
      mergeLoop_untouched hm hk fun q hqm => hkname ▸ hq q hqm
    rcases mem_buildMap hbm with ⟨q, _, heq⟩
    have hpceq : pc = newPackageCoverage q := (Prod.mk.injEq .. ▸ heq : _ ∧ _).2
    rw [hpceq] at hf
    exact (mem_newPackageCoverage_Files hf).1

/-- Witness for C2 at the spec's example: statement packages `{A, B}`,
function packages `{B, C}`; dropping `C` leaves the result unchanged. -/
theorem c2_unmatched_function_package_dropped_witness :
    (∀ p ∈ [(⟨"A", 1, 1, []⟩ : PackageStatements), ⟨"B", 1, 1, []⟩],
        p.Package ≠ (⟨"C", []⟩ : gofunc.PackageFunctions).Package) ∧
      (newCoverage [⟨"A", 1, 1, []⟩, ⟨"B", 1, 1, []⟩]
            [⟨"B", []⟩, ⟨"C", []⟩]
          = newCoverage [⟨"A", 1, 1, []⟩, ⟨"B", 1, 1, []⟩] [⟨"B", []⟩] ∧
        ∀ fns cov pc,
          newCoverage [⟨"A", 1, 1, []⟩, ⟨"B", 1, 1, []⟩] fns = some cov →
          pc ∈ cov.Packages → (∀ q ∈ fns, q.Package ≠ pc.Name) →
          ∀ f ∈ pc.Files, f.Functions = []) :=
  ⟨by decide,
    c2_unmatched_function_package_dropped
      [⟨"A", 1, 1, []⟩, ⟨"B", 1, 1, []⟩] [⟨"B", []⟩] [] ⟨"C", []⟩ (by decide)⟩

/-- C3: the overall percentage is `percent` of the sums of the
package-level covered and total statement counts (totals-weighted), and
is `0` when the total sum is `0`. -/
theorem c3_overall_percent_totals_weighted (cps : List PackageStatements)
    (fns : List gofunc.PackageFunctions) (cov : Coverage)
    (h : newCoverage cps fns = some cov) :
    cov.Percent = percent ((cps.map PackageStatements.CoveredStmts).sum)
        ((cps.map PackageStatements.Stmts).sum) ∧
      ((cps.map PackageStatements.Stmts).sum = 0 → cov.Percent = 0) := by
  unfold newCoverage at h
  rcases Option.map_eq_some'.mp h with ⟨merged, _, he⟩
  have hp : cov.Percent = percent (sumCovered cps) (sumTotal cps) := by
    rw [← he]
  rw [sumCovered_eq, sumTotal_eq] at hp
  refine ⟨hp, fun h0 => ?_⟩
  rw [hp, h0]
  exact percent_zero_den _

/-- Witness for C3 at the spec's example: packages with (10 stmts, 8
covered) and (5, 0) give overall `percent 8 15`, which is `53.3`. -/
theorem c3_overall_percent_totals_weighted_witness :
    newCoverage [⟨"a", 10, 8, []⟩, ⟨"b", 5, 0, []⟩] []
        = some ⟨percent 8 15, [⟨"a", []⟩, ⟨"b", []⟩]⟩ ∧
      percent 8 15 = 53.3 ∧
      ((⟨percent 8 15, [⟨"a", []⟩, ⟨"b", []⟩]⟩ : Coverage).Percent
          = percent (([(⟨"a", 10, 8, []⟩ : PackageStatements),
                ⟨"b", 5, 0, []⟩].map PackageStatements.CoveredStmts).sum)
              (([(⟨"a", 10, 8, []⟩ : PackageStatements),
                ⟨"b", 5, 0, []⟩].map PackageStatements.Stmts).sum) ∧
        (([(⟨"a", 10, 8, []⟩ : PackageStatements),
            ⟨"b", 5, 0, []⟩].map PackageStatements.Stmts).sum = 0 →
          (⟨percent 8 15, [⟨"a", []⟩, ⟨"b", []⟩]⟩ : Coverage).Percent = 0)) :=
  ⟨by simp [newCoverage, buildMap, mergeLoop, mapSet, mapValues, sumCovered,
      sumTotal, newPackageCoverage],
    by
      have h : percent 8 15 = ((533 : ℤ) : ℚ) / 10 :=
        percent_eq (by norm_num)
          (goRound_eq_of_nonneg (by norm_num) (by norm_num) (by norm_num))
      rw [h]; norm_num,
    c3_overall_percent_totals_weighted [⟨"a", 10, 8, []⟩, ⟨"b", 5, 0, []⟩] []
      ⟨percent 8 15, [⟨"a", []⟩, ⟨"b", []⟩]⟩
      (by simp [newCoverage, buildMap, mergeLoop, mapSet, mapValues, sumCovered,
        sumTotal, newPackageCoverage])⟩

/-- C4: the percentage function meets the spec's reference values
exactly, and a zero denominator always yields `0` rather than an error
or an undefined value. -/
theorem c4_percent_reference_values :
    percent 1 3 = 33.3 ∧ percent 2 3 = 66.7 ∧ percent 0 0 = 0 ∧
      percent 0 10 = 0 ∧ percent 10 10 = 100 ∧ ∀ n : Int, percent n 0 = 0 := by
  refine ⟨?_, ?_, ?_, ?_, ?_, percent_zero_den⟩
  · have h : percent 1 3 = ((333 : ℤ) : ℚ) / 10 :=
      percent_eq (by norm_num)
        (goRound_eq_of_nonneg (by norm_num) (by norm_num) (by norm_num))
    rw [h]; norm_num
  · have h : percent 2 3 = ((667 : ℤ) : ℚ) / 10 :=
      percent_eq (by norm_num)
        (goRound_eq_of_nonneg (by norm_num) (by norm_num) (by norm_num))
    rw [h]; norm_num
  · exact percent_zero_den 0
  · have h : percent 0 10 = ((0 : ℤ) : ℚ) / 10 :=
      percent_eq (by norm_num)
        (goRound_eq_of_nonneg (by norm_num) (by norm_num) (by norm_num))
    rw [h]; norm_num
  · have h : percent 10 10 = ((1000 : ℤ) : ℚ) / 10 :=
      percent_eq (by norm_num)
        (goRound_eq_of_nonneg (by norm_num) (by norm_num) (by norm_num))
    rw [h]; norm_num

/-- C5: a converted function record copies name, percentage, file and
line 1:1, and its `Internal` flag is true iff the first byte of the
name is an ASCII lowercase letter (`97 ≤ c ≤ 122`); any other first
byte (uppercase, underscore, digit, or a non-ASCII lead byte) yields
`Internal = false`. -/
theorem c5_internal_iff_lowercase_first_byte (g : gofunc.Function) (c : Nat)
    (rest : List Nat) (h : g.Function = c :: rest) :
    ∃ fc, toFunction g = some fc ∧
      (fc.Internal = true ↔ 97 ≤ c ∧ c ≤ 122) ∧
      fc.Name = g.Function ∧ fc.Percent = g.Percent ∧
      fc.File = g.File ∧ fc.Line = g.Line := by
  refine ⟨⟨g.Function, g.Percent, g.File, g.Line, isLower c⟩, ?_, ?_, rfl, rfl,
    rfl, rfl⟩
  · rw [toFunction, h]
  · simp [isLower, Bool.and_eq_true, decide_eq_true_eq]

/-- Witness for C5: `"Do"` (first byte 68) is exported,
`"do"` (first byte 100) is internal. -/
theorem c5_internal_iff_lowercase_first_byte_witness :
    ((∃ fc, toFunction ⟨[68, 111], 100, "a.go", 1⟩ = some fc ∧
        (fc.Internal = true ↔ 97 ≤ 68 ∧ 68 ≤ 122) ∧
        fc.Name = [68, 111] ∧ fc.Percent = 100 ∧
        fc.File = "a.go" ∧ fc.Line = 1) ∧
      ¬ (97 ≤ 68 ∧ 68 ≤ 122)) ∧
    ((∃ fc, toFunction ⟨[100, 111], 100, "a.go", 2⟩ = some fc ∧
        (fc.Internal = true ↔ 97 ≤ 100 ∧ 100 ≤ 122) ∧
        fc.Name = [100, 111] ∧ fc.Percent = 100 ∧
        fc.File = "a.go" ∧ fc.Line = 2) ∧
      (97 ≤ 100 ∧ 100 ≤ 122)) :=
  ⟨⟨c5_internal_iff_lowercase_first_byte _ 68 [111] rfl, by decide⟩,
    ⟨c5_internal_iff_lowercase_first_byte _ 100 [111] rfl, by decide⟩⟩

/-- C6: the merge phase only replaces function lists: stripped of the
`Functions` fields, the output packages (names, files, per-file
percentage and statement counts) are exactly the ones built from the
statement-side input by the build phase. -/
theorem c6_merge_only_replaces_function_lists (cps : List PackageStatements)
    (fns : List gofunc.PackageFunctions) (cov : Coverage)
    (h : newCoverage cps fns = some cov) :
    cov.Packages.map stripPkg = (mapValues (buildMap cps)).map stripPkg := by
  unfold newCoverage at h
  rcases Option.map_eq_some'.mp h with ⟨merged, hm, he⟩
  rw [← he]
  show (mapValues merged).map stripPkg = (mapValues (buildMap cps)).map stripPkg
  have hstrip := congrArg (List.map Prod.snd) (mergeLoop_strip hm)
  simpa [mapValues, List.map_map, Function.comp] using hstrip

/-- Witness for C6 on a package whose file receives merged function
data. -/
theorem c6_merge_only_replaces_function_lists_witness :
    newCoverage [⟨"p", 4, 2, [("x.go", ⟨50, 4, 2⟩)]⟩]
        [⟨"p", [("x.go", ⟨[⟨[100, 111], 50, "x.go", 3⟩]⟩)]⟩]
      = some ⟨percent 2 4,
          [⟨"p", [⟨"x.go", 50, [⟨[100, 111], 50, "x.go", 3, true⟩], 4, 2⟩]⟩]⟩ ∧
    (⟨percent 2 4,
        [⟨"p", [⟨"x.go", 50, [⟨[100, 111], 50, "x.go", 3, true⟩], 4, 2⟩]⟩]⟩
          : Coverage).Packages.map stripPkg
      = (mapValues (buildMap [⟨"p", 4, 2, [("x.go", ⟨50, 4, 2⟩)]⟩])).map stripPkg :=
  ⟨by simp [newCoverage, buildMap, mergeLoop, mapLookup, mapSet, mapValues,
      sumCovered, sumTotal, newPackageCoverage, PackageCoverage.add, addLoop,
      hasFile, replaceFirst, toFunctions, toFunction, isLower],
    c6_merge_only_replaces_function_lists
      [⟨"p", 4, 2, [("x.go", ⟨50, 4, 2⟩)]⟩]
      [⟨"p", [("x.go", ⟨[⟨[100, 111], 50, "x.go", 3⟩]⟩)]⟩]
      ⟨percent 2 4,
        [⟨"p", [⟨"x.go", 50, [⟨[100, 111], 50, "x.go", 3, true⟩], 4, 2⟩]⟩]⟩
      (by simp [newCoverage, buildMap, mergeLoop, mapLookup, mapSet, mapValues,
        sumCovered, sumTotal, newPackageCoverage, PackageCoverage.add, addLoop,
        hasFile, replaceFirst, toFunctions, toFunction, isLower])⟩

/-- C7: when every function record's name is non-empty, the
first-byte access of function record conversion is in bounds (no
conversion panics) and the aggregation always returns a `Coverage`. -/
theorem c7_aggregation_total_on_nonempty_names (cps : List PackageStatements)
    (fns : List gofunc.PackageFunctions)
    (h : ∀ q ∈ fns, ∀ e ∈ q.Files, ∀ g ∈ e.2.Functions, g.Function ≠ []) :
    (∀ q ∈ fns, ∀ e ∈ q.Files, (toFunctions e.2.Functions).isSome) ∧
      ∃ cov, newCoverage cps fns = some cov := by
  constructor
  · intro q hq e he
    exact toFunctions_isSome fun g hg => h q hq e he g hg
  · rcases Option.isSome_iff_exists.mp (mergeLoop_isSome (buildMap cps) fns h)
      with ⟨m', hm'⟩
    refine ⟨⟨percent (sumCovered cps) (sumTotal cps), mapValues m'⟩, ?_⟩
    unfold newCoverage
    rw [hm']
    rfl

/-- Witness for C7 on an input that exercises a real merge. -/
theorem c7_aggregation_total_on_nonempty_names_witness :
    (∀ q ∈ [(⟨"p", [("x.go", ⟨[⟨[100, 111], 50, "x.go", 3⟩]⟩)]⟩ :
        gofunc.PackageFunctions)],
      ∀ e ∈ q.Files, ∀ g ∈ e.2.Functions, g.Function ≠ []) ∧
    ((∀ q ∈ [(⟨"p", [("x.go", ⟨[⟨[100, 111], 50, "x.go", 3⟩]⟩)]⟩ :
          gofunc.PackageFunctions)],
        ∀ e ∈ q.Files, (toFunctions e.2.Functions).isSome) ∧
      ∃ cov, newCoverage [⟨"p", 4, 2, [("x.go", ⟨50, 4, 2⟩)]⟩]
          [⟨"p", [("x.go", ⟨[⟨[100, 111], 50, "x.go", 3⟩]⟩)]⟩] = some cov) :=
  ⟨by decide,
    c7_aggregation_total_on_nonempty_names
      [⟨"p", 4, 2, [("x.go", ⟨50, 4, 2⟩)]⟩]
      [⟨"p", [("x.go", ⟨[⟨[100, 111], 50, "x.go", 3⟩]⟩)]⟩] (by decide)⟩

/-- C8 counterexample: the claim as stated does not require covered
counts to be nonnegative.  The input package with 10 total and -5
covered statements satisfies every stated hypothesis (covered ≤ total;
the file and function percentage conditions are vacuous), yet the
overall output percentage is -50, outside `[0, 100]`. -/
theorem c8_range_claim_counterexample :
    (∀ pkg ∈ [(⟨"p", 10, -5, []⟩ : PackageStatements)],
        pkg.CoveredStmts ≤ pkg.Stmts ∧
          ∀ e ∈ pkg.Files, e.2.CoveredStmts ≤ e.2.Stmts ∧ inRange e.2.Percent) ∧
      newCoverage [⟨"p", 10, -5, []⟩] [] = some ⟨percent (-5) 10, [⟨"p", []⟩]⟩ ∧
      percent (-5) 10 = -50 ∧ ¬ inRange (percent (-5) 10) := by
  have hval : percent (-5) 10 = -50 := by
    have h : percent (-5) 10 = ((-500 : ℤ) : ℚ) / 10 :=
      percent_eq (by norm_num)
        (goRound_eq_of_neg (by norm_num) (by norm_num) (by norm_num))
    rw [h]; norm_num
  refine ⟨?_, ?_, hval, ?_⟩
  · intro pkg hpkg
    rw [List.mem_singleton] at hpkg
    subst hpkg
    exact ⟨by norm_num, by simp⟩
  · simp [newCoverage, buildMap, mergeLoop, mapSet, mapValues, sumCovered,
      sumTotal, newPackageCoverage]
  · intro hr
    rw [hval] at hr
    exact absurd hr.1 (by norm_num)

/-- C8 (amended): when additionally the covered counts are
nonnegative, every percentage in the output tree — overall, per file
and per function — is in `[0, 100]` with one decimal place. -/
theorem c8_percentages_in_range_amended (cps : List PackageStatements)
    (fns : List gofunc.PackageFunctions) (cov : Coverage)
    (hcnt : ∀ pkg ∈ cps, (0 ≤ pkg.CoveredStmts ∧ pkg.CoveredStmts ≤ pkg.Stmts) ∧
      ∀ e ∈ pkg.Files, 0 ≤ e.2.CoveredStmts ∧ e.2.CoveredStmts ≤ e.2.Stmts)
    (hfile : ∀ pkg ∈ cps, ∀ e ∈ pkg.Files, inRange e.2.Percent)
    (hfn : ∀ q ∈ fns, ∀ e ∈ q.Files, ∀ g ∈ e.2.Functions, inRange g.Percent)
    (h : newCoverage cps fns = some cov) :
    inRange cov.Percent ∧
      ∀ pc ∈ cov.Packages, ∀ f ∈ pc.Files,
        inRange f.Percent ∧ ∀ fc ∈ f.Functions, inRange fc.Percent := by
  unfold newCoverage at h
  rcases Option.map_eq_some'.mp h with ⟨merged, hm, he⟩
  constructor
  · have hc0 : 0 ≤ sumCovered cps := by
      rw [sumCovered_eq]
      refine List.sum_nonneg ?_
      intro x hx
      rcases List.mem_map.mp hx with ⟨p, hp, hxe⟩
      exact hxe ▸ ((hcnt p hp).1).1
    have hc1 : sumCovered cps ≤ sumTotal cps := by
      rw [sumCovered_eq, sumTotal_eq]
      exact List.sum_le_sum fun p hp => ((hcnt p hp).1).2
    have hin := percent_inRange hc0 hc1
    rw [← he]
    exact hin
  · intro pc hpc f hf
    rw [← he] at hpc
    rcases mem_mapValues.mp (hpc : pc ∈ mapValues merged) with ⟨k, hk⟩
    have hmem2 : (k, stripPkg pc) ∈
        (buildMap cps).map (fun p => (p.1, stripPkg p.2)) := by
      rw [← mergeLoop_strip hm]
      exact List.mem_map.mpr ⟨(k, pc), hk, rfl⟩
    rcases List.mem_map.mp hmem2 with ⟨p0, hp0, hpe⟩
    have hsp : stripPkg p0.2 = stripPkg pc := (Prod.ext_iff.mp hpe).2
    have hfs : p0.2.Files.map stripFile = pc.Files.map stripFile :=
      congrArg (fun t => t.2) hsp
    have hsf : stripFile f ∈ p0.2.Files.map stripFile := by
      rw [hfs]
      exact List.mem_map.mpr ⟨f, hf, rfl⟩
    rcases List.mem_map.mp hsf with ⟨f0, hf0, hsfe⟩
    have hperc : f0.Percent = f.Percent := congrArg (fun t => t.2.1) hsfe
    rcases mem_buildMap hp0 with ⟨q, hq, heq⟩
    have hp02 : p0.2 = newPackageCoverage q := by rw [heq]
    rw [hp02] at hf0
    rcases mem_newPackageCoverage_Files hf0 with ⟨_, e, hee, _, hpe2, _, _⟩
    constructor
    · rw [← hperc, hpe2]
      exact hfile q hq e hee
    · intro fc hfc
      rcases mergeLoop_provenance hm hk hf hfc with
        ⟨pcb, f1, hpcb, hf1, hfc1⟩ | ⟨qq, hqq, e2, he2, g, hg, hgfc⟩
      · rcases mem_buildMap hpcb with ⟨q2, _, heq2⟩
        have hpcb2 : pcb = newPackageCoverage q2 :=
          (Prod.ext_iff.mp heq2).2
        rw [hpcb2] at hf1
        have h1 := (mem_newPackageCoverage_Files hf1).1
        rw [h1] at hfc1
        simp at hfc1
      · have hfcp : fc.Percent = g.Percent := (toFunction_fields hgfc).2.1
        rw [hfcp]
        exact hfn qq hqq e2 he2 g hg

/-- Witness for the amended C8 on an input with a file percentage, a
function percentage and an overall percentage. -/
theorem c8_percentages_in_range_amended_witness :
    inRange (⟨percent 2 4,
        [⟨"p", [⟨"x.go", 50, [⟨[100, 111], 50, "x.go", 3, true⟩], 4, 2⟩]⟩]⟩
          : Coverage).Percent ∧
      ∀ pc ∈ (⟨percent 2 4,
          [⟨"p", [⟨"x.go", 50, [⟨[100, 111], 50, "x.go", 3, true⟩], 4, 2⟩]⟩]⟩
            : Coverage).Packages,
        ∀ f ∈ pc.Files,
          inRange f.Percent ∧ ∀ fc ∈ f.Functions, inRange fc.Percent :=
  c8_percentages_in_range_amended
    [⟨"p", 4, 2, [("x.go", ⟨50, 4, 2⟩)]⟩]
    [⟨"p", [("x.go", ⟨[⟨[100, 111], 50, "x.go", 3⟩]⟩)]⟩]
    ⟨percent 2 4,
      [⟨"p", [⟨"x.go", 50, [⟨[100, 111], 50, "x.go", 3, true⟩], 4, 2⟩]⟩]⟩
    (by decide)
    (by
      intro pkg hpkg e he
      rw [List.mem_singleton] at hpkg
      subst hpkg
      simp only [List.mem_singleton] at he
      subst he
      exact ⟨by norm_num, by norm_num, 500, by norm_num⟩)
    (by
      intro q hq e he g hg
      rw [List.mem_singleton] at hq
      subst hq
      simp only [List.mem_singleton] at he
      subst he
      simp only [List.mem_singleton] at hg
      subst hg
      exact ⟨by norm_num, by norm_num, 500, by norm_num⟩)
    (by simp [newCoverage, buildMap, mergeLoop, mapLookup, mapSet, mapValues,
      sumCovered, sumTotal, newPackageCoverage, PackageCoverage.add, addLoop,
      hasFile, replaceFirst, toFunctions, toFunction, isLower])

/-- C9: the output packages carry pairwise-distinct names, and a map
lookup (as used by the merge phase) only returns an entry whose key
equals the looked-up name exactly. -/
theorem c9_package_names_unique (cps : List PackageStatements)
    (fns : List gofunc.PackageFunctions) (cov : Coverage)
    (h : newCoverage cps fns = some cov) :
    (cov.Packages.map PackageCoverage.Name).Nodup ∧
      ∀ (m : List (String × PackageCoverage)) (k : String)
        (pc : PackageCoverage), mapLookup m k = some pc → (k, pc) ∈ m := by
  unfold newCoverage at h
  rcases Option.map_eq_some'.mp h with ⟨merged, hm, he⟩
  have hnodup : (mapKeys merged).Nodup := by
    rw [mergeLoop_keys hm]
    exact buildMap_keys_nodup cps
  have hgood := mergeLoop_good (buildMap_good cps) hm
  have hnames : cov.Packages.map PackageCoverage.Name = mapKeys merged := by
    rw [← he]
    show (mapValues merged).map PackageCoverage.Name = mapKeys merged
    rw [mapValues, mapKeys, List.map_map]
    exact List.map_congr_left hgood
  exact ⟨by rw [hnames]; exact hnodup, fun m k pc hlk => mapLookup_mem hlk⟩

/-- Witness for C9 on an input that repeats a package name; the output
still has distinct names. -/
theorem c9_package_names_unique_witness :
    newCoverage [⟨"a", 1, 1, []⟩, ⟨"b", 2, 1, []⟩, ⟨"a", 3, 2, []⟩] []
        = some ⟨percent 4 6, [⟨"a", []⟩, ⟨"b", []⟩]⟩ ∧
      (((⟨percent 4 6, [⟨"a", []⟩, ⟨"b", []⟩]⟩ : Coverage).Packages.map
          PackageCoverage.Name).Nodup ∧
        ∀ (m : List (String × PackageCoverage)) (k : String)
          (pc : PackageCoverage), mapLookup m k = some pc → (k, pc) ∈ m) :=
  ⟨by simp [newCoverage, buildMap, mergeLoop, mapSet, mapValues, sumCovered,
      sumTotal, newPackageCoverage],
    c9_package_names_unique [⟨"a", 1, 1, []⟩, ⟨"b", 2, 1, []⟩, ⟨"a", 3, 2, []⟩]
      [] ⟨percent 4 6, [⟨"a", []⟩, ⟨"b", []⟩]⟩
      (by simp [newCoverage, buildMap, mergeLoop, mapSet, mapValues, sumCovered,
        sumTotal, newPackageCoverage])⟩

/-- C10: the overall percentage depends only on the statement-side
input: for one statement-side input and any two function-side inputs,
the two aggregations have the same `Percent`. -/
theorem c10_percent_independent_of_function_data (cps : List PackageStatements)
    (fns1 fns2 : List gofunc.PackageFunctions) (cov1 cov2 : Coverage)
    (h1 : newCoverage cps fns1 = some cov1)
    (h2 : newCoverage cps fns2 = some cov2) :
    cov1.Percent = cov2.Percent := by
  unfold newCoverage at h1 h2
  rcases Option.map_eq_some'.mp h1 with ⟨m1, _, he1⟩
  rcases Option.map_eq_some'.mp h2 with ⟨m2, _, he2⟩
  rw [← he1, ← he2]

/-- Witness for C10: empty function data versus function data that
merges into the file; the overall percentage is the same. -/
theorem c10_percent_independent_of_function_data_witness :
    (⟨percent 2 4, [⟨"p", [⟨"x.go", 50, [], 4, 2⟩]⟩]⟩ : Coverage).Percent
      = (⟨percent 2 4,
          [⟨"p", [⟨"x.go", 50, [⟨[100, 111], 50, "x.go", 3, true⟩], 4, 2⟩]⟩]⟩
            : Coverage).Percent :=
  c10_percent_independent_of_function_data
    [⟨"p", 4, 2, [("x.go", ⟨50, 4, 2⟩)]⟩] []
    [⟨"p", [("x.go", ⟨[⟨[100, 111], 50, "x.go", 3⟩]⟩)]⟩]
    ⟨percent 2 4, [⟨"p", [⟨"x.go", 50, [], 4, 2⟩]⟩]⟩
    ⟨percent 2 4,
      [⟨"p", [⟨"x.go", 50, [⟨[100, 111], 50, "x.go", 3, true⟩], 4, 2⟩]⟩]⟩
    (by simp [newCoverage, buildMap, mergeLoop, mapSet, mapValues, sumCovered,
      sumTotal, newPackageCoverage])
    (by simp [newCoverage, buildMap, mergeLoop, mapLookup, mapSet, mapValues,
      sumCovered, sumTotal, newPackageCoverage, PackageCoverage.add, addLoop,
      hasFile, replaceFirst, toFunctions, toFunction, isLower])

end Tstat
